import Mathlib

/-!
Verification of the DocChunker chunk-and-metadata pipeline.

Text is embedded as `List Char` (Python `str`).  Each definition translates
one Python function of the repository; the doc comment of each definition
names its source.
-/

namespace DocChunker

/-- Auxiliary: `dropWhile` never lengthens a list (used for termination). -/
theorem dropWhile_length_le (p : α → Bool) (l : List α) :
    (l.dropWhile p).length ≤ l.length := by
  induction l with
  | nil => simp
  | cons a l ih => cases h : p a <;> simp [List.dropWhile_cons, h] <;> omega

/-- Python ASCII whitespace: the characters matched by the regex class `\s`
(ASCII range) and stripped by `str.strip()`. -/
def isPySpace (c : Char) : Bool :=
  c = ' ' || c = '\t' || c = '\n' || c = '\r' || c = '\x0b' || c = '\x0c'

/-- Python `str.strip()`: remove leading and trailing whitespace. -/
def pyStrip (s : List Char) : List Char :=
  ((s.dropWhile isPySpace).reverse.dropWhile isPySpace).reverse

/-- Python `str.split()` with no argument: the maximal runs of
non-whitespace characters, in order. -/
def pySplitWs : List Char → List (List Char)
  | [] => []
  | c :: rest =>
    if isPySpace c then pySplitWs rest
    else (c :: rest.takeWhile (fun d => !isPySpace d)) ::
      pySplitWs (rest.dropWhile (fun d => !isPySpace d))
termination_by l => l.length
decreasing_by
  all_goals
    simp only [List.length_cons]
    have h1 := dropWhile_length_le (fun d => !isPySpace d) rest
    omega

/-- The matches of `words = re.findall(r'\S+\s*', text)` in
`src/chunkers/word_chunker.py`, each split into its word part (`\S+`) and
its trailing-whitespace part (`\s*`); the token the regex returns is the
concatenation of the two parts. -/
def tokensP : List Char → List (List Char × List Char)
  | [] => []
  | c :: rest =>
    if isPySpace c then tokensP rest
    else
      ((c :: rest.takeWhile (fun d => !isPySpace d)),
        ((rest.dropWhile (fun d => !isPySpace d)).takeWhile isPySpace)) ::
      tokensP ((rest.dropWhile (fun d => !isPySpace d)).dropWhile isPySpace)
termination_by l => l.length
decreasing_by
  all_goals
    simp only [List.length_cons]
    have h1 := dropWhile_length_le (fun d => !isPySpace d) rest
    have h2 := dropWhile_length_le isPySpace (rest.dropWhile (fun d => !isPySpace d))
    omega

/-- `words = re.findall(r'\S+\s*', text)`: each match as one string. -/
def tokens (s : List Char) : List (List Char) :=
  (tokensP s).map (fun t => t.1 ++ t.2)

/-- The grouping `words[i:i+chunk_size] for i in range(0, len(words), chunk_size)`.
(For `chunk_size = 0` Python `range` raises `ValueError`; we return `[]`,
outside the domain `chunk_size ≥ 1` of every claim.) -/
def chunkList (n : Nat) (l : List α) : List (List α) :=
  match n, l with
  | 0, _ => []
  | _ + 1, [] => []
  | m + 1, c :: cs => (c :: cs).take (m + 1) :: chunkList (m + 1) ((c :: cs).drop (m + 1))
termination_by l.length
decreasing_by
  simp only [List.length_drop, List.length_cons]
  omega

/-- `chunk_text_by_words` from `src/chunkers/word_chunker.py`:
`[''.join(words[i:i+chunk_size]).strip() for i in range(0, len(words), chunk_size)]`. -/
def chunk_text_by_words (text : List Char) (chunk_size : Nat) : List (List Char) :=
  (chunkList chunk_size (tokens text)).map (fun g => pyStrip g.join)

unseal tokensP chunkList in
example : chunk_text_by_words "hello world  foo bar baz".toList 2 =
    ["hello world".toList, "foo bar".toList, "baz".toList] := by decide

unseal tokensP chunkList in
example : chunk_text_by_words "".toList 3 = [] := by decide

/-! ### List helper lemmas -/

theorem takeWhile_append_all (p : α → Bool) (l₁ l₂ : List α)
    (h : ∀ a ∈ l₁, p a = true) :
    (l₁ ++ l₂).takeWhile p = l₁ ++ l₂.takeWhile p := by
  induction l₁ with
  | nil => simp
  | cons a l ih =>
    have ha : p a = true := h a (by simp)
    simp only [List.cons_append, List.takeWhile_cons, ha, if_true]
    rw [ih (fun b hb => h b (by simp [hb]))]

theorem dropWhile_append_all (p : α → Bool) (l₁ l₂ : List α)
    (h : ∀ a ∈ l₁, p a = true) :
    (l₁ ++ l₂).dropWhile p = l₂.dropWhile p := by
  induction l₁ with
  | nil => simp
  | cons a l ih =>
    have ha : p a = true := h a (by simp)
    simp only [List.cons_append, List.dropWhile_cons, ha, if_true]
    exact ih (fun b hb => h b (by simp [hb]))

theorem mem_takeWhile_pred (p : α → Bool) (l : List α) (a : α)
    (h : a ∈ l.takeWhile p) : p a = true := by
  induction l with
  | nil => simp at h
  | cons b l ih =>
    by_cases hb : p b = true
    · rw [List.takeWhile_cons, if_pos hb] at h
      rcases List.mem_cons.mp h with rfl | h2
      · exact hb
      · exact ih h2
    · rw [List.takeWhile_cons, if_neg hb] at h
      simp at h

/-! ### Well-formed token lists -/

/-- A token as produced by one match of `\S+\s*`: a nonempty non-whitespace
word part followed by a whitespace part. -/
def WFtok (t : List Char × List Char) : Prop :=
  t.1 ≠ [] ∧ (∀ c ∈ t.1, isPySpace c = false) ∧ (∀ c ∈ t.2, isPySpace c = true)

/-- A list of tokens in which every token is well formed, and every token
except the last carries at least one trailing-whitespace character (the
separation the regex guarantees between consecutive matches). -/
def SepToks : List (List Char × List Char) → Prop
  | [] => True
  | t :: ts => WFtok t ∧ (ts = [] ∨ t.2 ≠ []) ∧ SepToks ts

theorem sepToks_tokensP (s : List Char) : SepToks (tokensP s) := by
  induction s using tokensP.induct with
  | case1 => simp [tokensP, SepToks]
  | case2 c rest hsp ih =>
    rw [tokensP, if_pos hsp]
    exact ih
  | case3 c rest hsp ih =>
    rw [tokensP, if_neg hsp]
    refine ⟨⟨by simp, ?_, ?_⟩, ?_, ih⟩
    · intro d hd
      rcases List.mem_cons.mp hd with rfl | hd2
      · simpa using hsp
      · simpa using mem_takeWhile_pred _ rest d hd2
    · intro d hd
      exact mem_takeWhile_pred _ _ d hd
    · by_cases hr : (rest.dropWhile (fun d => !isPySpace d)).takeWhile isPySpace = []
      · left
        rcases hdw : rest.dropWhile (fun d => !isPySpace d) with _ | ⟨d, r2⟩
        · simp [hdw, tokensP]
        · have hd : (!isPySpace d) = false := by
            have := List.dropWhile_get_zero_not (p := fun d => !isPySpace d) rest
              (by rw [hdw]; simp)
            simpa [hdw] using this
          rw [hdw, List.takeWhile_cons] at hr
          simp only [Bool.not_eq_false'] at hd
          rw [if_pos hd] at hr
          simp at hr
      · right
        exact hr

/-! ### Word-splitting lemmas -/

theorem pySplitWs_all_space (s : List Char) (h : ∀ c ∈ s, isPySpace c = true) :
    pySplitWs s = [] := by
  induction s with
  | nil => simp [pySplitWs]
  | cons c rest ih =>
    rw [pySplitWs, if_pos (h c (by simp))]
    exact ih (fun d hd => h d (by simp [hd]))

theorem pySplitWs_leading_space (sp r : List Char)
    (hsp : ∀ c ∈ sp, isPySpace c = true) :
    pySplitWs (sp ++ r) = pySplitWs r := by
  induction sp with
  | nil => simp
  | cons d sp2 ih =>
    rw [List.cons_append, pySplitWs, if_pos (hsp d (by simp))]
    exact ih (fun e he => hsp e (by simp [he]))

theorem pySplitWs_word_sp (w sp r : List Char) (hw : w ≠ [])
    (hwns : ∀ c ∈ w, isPySpace c = false) (hsp : ∀ c ∈ sp, isPySpace c = true)
    (hsep : sp ≠ [] ∨ r = []) :
    pySplitWs (w ++ sp ++ r) = w :: pySplitWs r := by
  rcases w with _ | ⟨c, w2⟩
  · exact absurd rfl hw
  have hc : isPySpace c = false := hwns c (by simp)
  have hw2 : ∀ d ∈ w2, (fun d => !isPySpace d) d = true := by
    intro d hd; simp [hwns d (by simp [hd])]
  have hassoc : (c :: w2) ++ sp ++ r = c :: (w2 ++ (sp ++ r)) := by simp
  rw [hassoc, pySplitWs, if_neg (by simp [hc])]
  have htk : (w2 ++ (sp ++ r)).takeWhile (fun d => !isPySpace d) =
      w2 ++ (sp ++ r).takeWhile (fun d => !isPySpace d) :=
    takeWhile_append_all _ _ _ hw2
  have hdw : (w2 ++ (sp ++ r)).dropWhile (fun d => !isPySpace d) =
      (sp ++ r).dropWhile (fun d => !isPySpace d) :=
    dropWhile_append_all _ _ _ hw2
  rcases sp with _ | ⟨d, sp2⟩
  · rcases hsep with h1 | rfl
    · exact absurd rfl h1
    · simp only [List.nil_append, List.append_nil] at htk hdw ⊢
      rw [htk, hdw]
      simp [pySplitWs]
  · have hd : isPySpace d = true := hsp d (by simp)
    rw [htk, hdw]
    rw [List.cons_append, List.takeWhile_cons, if_neg (by simp [hd]), List.append_nil]
    congr 1
    rw [List.dropWhile_cons, if_neg (by simp [hd])]
    exact pySplitWs_leading_space (d :: sp2) r hsp

theorem takeWhile_append_stop (p : α → Bool) (l₁ l₂ : List α)
    (h : ∀ a ∈ l₂, p a = false) :
    (l₁ ++ l₂).takeWhile p = l₁.takeWhile p := by
  induction l₁ with
  | nil =>
    rcases l₂ with _ | ⟨d, l⟩
    · simp
    · simp [List.takeWhile_cons, h d (by simp)]
  | cons a l ih =>
    cases ha : p a <;>
      simp [List.takeWhile_cons, ha, ih]

theorem dropWhile_append_stop (p : α → Bool) (l₁ l₂ : List α)
    (h : ∀ a ∈ l₂, p a = false) :
    (l₁ ++ l₂).dropWhile p = l₁.dropWhile p ++ l₂ := by
  induction l₁ with
  | nil =>
    rcases l₂ with _ | ⟨d, l⟩
    · simp
    · simp [List.dropWhile_cons, h d (by simp)]
  | cons a l ih =>
    cases ha : p a <;>
      simp [List.dropWhile_cons, ha, ih]

theorem pySplitWs_space_suffix (x sp : List Char)
    (hsp : ∀ c ∈ sp, isPySpace c = true) :
    pySplitWs (x ++ sp) = pySplitWs x := by
  induction x using pySplitWs.induct with
  | case1 =>
    rw [List.nil_append, pySplitWs_all_space sp hsp, pySplitWs]
  | case2 c rest hc ih =>
    rw [List.cons_append, pySplitWs, if_pos hc, pySplitWs, if_pos hc]
    exact ih
  | case3 c rest hc ih =>
    have hsp2 : ∀ a ∈ sp, (fun d => !isPySpace d) a = false := by
      intro a ha; simp [hsp a ha]
    rw [List.cons_append, pySplitWs, if_neg hc, pySplitWs, if_neg hc,
      takeWhile_append_stop _ _ _ hsp2, dropWhile_append_stop _ _ _ hsp2]
    rw [ih]

theorem pySplitWs_space_dropWhile (z : List Char) :
    pySplitWs (z.dropWhile isPySpace) = pySplitWs z := by
  conv_rhs => rw [← List.takeWhile_append_dropWhile (p := isPySpace) (l := z)]
  rw [pySplitWs_leading_space _ _ (fun c hc => mem_takeWhile_pred _ _ c hc)]

theorem pySplitWs_pyStrip (x : List Char) :
    pySplitWs (pyStrip x) = pySplitWs x := by
  have h1 : pySplitWs x = pySplitWs (x.dropWhile isPySpace) :=
    (pySplitWs_space_dropWhile x).symm
  set y := x.dropWhile isPySpace with hy
  have hdecomp : y = pyStrip x ++ (y.reverse.takeWhile isPySpace).reverse := by
    rw [pyStrip, ← hy]
    conv_lhs => rw [← List.reverse_reverse y,
      ← List.takeWhile_append_dropWhile (p := isPySpace) (l := y.reverse)]
    rw [List.reverse_append]
  rw [h1, hdecomp, pySplitWs_space_suffix]
  intro c hc
  rw [List.mem_reverse] at hc
  exact mem_takeWhile_pred _ _ c hc

theorem tokensP_words (s : List Char) :
    (tokensP s).map Prod.fst = pySplitWs s := by
  induction s using tokensP.induct with
  | case1 => simp [tokensP, pySplitWs]
  | case2 c rest hc ih =>
    rw [tokensP, if_pos hc, pySplitWs, if_pos hc]
    exact ih
  | case3 c rest hc ih =>
    rw [tokensP, if_neg hc, pySplitWs, if_neg hc, List.map_cons]
    refine congrArg _ ?_
    rw [ih, pySplitWs_space_dropWhile]

theorem sepToks_flatten_words (tp : List (List Char × List Char))
    (h : SepToks tp) :
    pySplitWs ((tp.map (fun t => t.1 ++ t.2)).flatten) = tp.map Prod.fst := by
  induction tp with
  | nil => simp [pySplitWs]
  | cons t ts ih =>
    obtain ⟨⟨hw, hwns, hsp⟩, hsep, hts⟩ := h
    rw [List.map_cons, List.flatten_cons, List.map_cons]
    rw [pySplitWs_word_sp t.1 t.2 _ hw hwns hsp]
    · rw [ih hts]
    · rcases hsep with rfl | h2
      · right; simp
      · left; exact h2

/-! ### Chunk-grouping lemmas -/

theorem chunkList_flatten (n : Nat) (l : List α) (h : 1 ≤ n) :
    (chunkList n l).flatten = l := by
  induction n, l using chunkList.induct with
  | case1 l => omega
  | case2 m => simp [chunkList]
  | case3 m c cs ih =>
    rw [chunkList, List.flatten_cons, ih (by omega)]
    exact List.take_append_drop _ _

theorem chunkList_length (n : Nat) (l : List α) (h : 1 ≤ n) :
    (chunkList n l).length = (l.length + n - 1) / n := by
  induction n, l using chunkList.induct with
  | case1 l => omega
  | case2 m =>
    rw [chunkList]
    simp only [List.length_nil]
    rw [Nat.div_eq_of_lt (by omega)]
  | case3 m c cs ih =>
    rw [chunkList, List.length_cons, ih (by omega), List.length_drop]
    have hL : (c :: cs).length = cs.length + 1 := rfl
    rw [hL]
    have h1 : cs.length + 1 + (m + 1) - 1 = cs.length + (m + 1) := by omega
    rw [h1, Nat.add_div_right _ (by omega)]
    by_cases h2 : cs.length + 1 ≤ m
    · have h3 : cs.length + 1 - (m + 1) = 0 := by omega
      rw [h3]
      rw [Nat.div_eq_of_lt (by omega), Nat.div_eq_of_lt (by omega)]
    · have h3 : cs.length + 1 - (m + 1) + (m + 1) - 1 = cs.length := by omega
      rw [h3]

theorem chunkList_map (f : α → β) (n : Nat) (l : List α) :
    chunkList n (l.map f) = (chunkList n l).map (List.map f) := by
  induction n, l using chunkList.induct with
  | case1 l => simp [chunkList]
  | case2 m => simp [chunkList]
  | case3 m c cs ih =>
    calc chunkList (m + 1) ((c :: cs).map f)
        = List.take (m + 1) ((c :: cs).map f) ::
            chunkList (m + 1) (List.drop (m + 1) ((c :: cs).map f)) := by
          rw [List.map_cons, chunkList]
      _ = ((c :: cs).take (m + 1)).map f ::
            chunkList (m + 1) (((c :: cs).drop (m + 1)).map f) := by
          rw [List.map_take, List.map_drop]
      _ = ((c :: cs).take (m + 1)).map f ::
            (chunkList (m + 1) ((c :: cs).drop (m + 1))).map (List.map f) := by
          rw [ih]
      _ = (chunkList (m + 1) (c :: cs)).map (List.map f) := by
          rw [chunkList, List.map_cons]

theorem sepToks_take (tp : List (List Char × List Char)) (n : Nat)
    (h : SepToks tp) : SepToks (tp.take n) := by
  induction tp generalizing n with
  | nil => simp [SepToks]
  | cons t ts ih =>
    rcases n with _ | m
    · simp [SepToks]
    · obtain ⟨hwf, hsep, hts⟩ := h
      refine ⟨hwf, ?_, ih m hts⟩
      rcases hsep with rfl | h2
      · left; simp
      · right; exact h2

theorem sepToks_drop (tp : List (List Char × List Char)) (n : Nat)
    (h : SepToks tp) : SepToks (tp.drop n) := by
  induction tp generalizing n with
  | nil => simp [SepToks]
  | cons t ts ih =>
    rcases n with _ | m
    · exact h
    · exact ih m h.2.2

theorem sepToks_chunkList (n : Nat) (tp : List (List Char × List Char))
    (h : SepToks tp) : ∀ g ∈ chunkList n tp, SepToks g := by
  induction n, tp using chunkList.induct with
  | case1 l => simp [chunkList]
  | case2 m => simp [chunkList]
  | case3 m c cs ih =>
    intro g hg
    rw [chunkList, List.mem_cons] at hg
    rcases hg with rfl | hg2
    · exact sepToks_take _ _ h
    · exact ih (sepToks_drop _ _ h) g hg2

/-! ### Claim C1 -/

/-- C1: for every input text and every `chunkSize ≥ 1`,
`chunk_text_by_words` returns chunks whose word sequences (each chunk split
on whitespace) concatenate, in order, to the word sequence of the original
text, and the number of chunks is `⌈word_count / chunkSize⌉` (written in
`Nat` arithmetic as `(word_count + chunkSize - 1) / chunkSize`). -/
theorem chunk_words_and_count (text : List Char) (n : Nat) (h : 1 ≤ n) :
    ((chunk_text_by_words text n).map pySplitWs).flatten = pySplitWs text ∧
    (chunk_text_by_words text n).length = ((pySplitWs text).length + n - 1) / n := by
  have hkey : (chunk_text_by_words text n).map pySplitWs =
      (chunkList n (tokensP text)).map (fun g => g.map Prod.fst) := by
    rw [chunk_text_by_words, tokens, chunkList_map, List.map_map, List.map_map]
    refine List.map_congr_left ?_
    intro g hg
    show pySplitWs (pyStrip (List.flatten (g.map (fun t => t.1 ++ t.2)))) = _
    rw [pySplitWs_pyStrip, sepToks_flatten_words g
      (sepToks_chunkList n (tokensP text) (sepToks_tokensP text) g hg)]
  constructor
  · rw [hkey, ← List.map_flatten, chunkList_flatten n _ h, tokensP_words]
  · have hlen : (chunk_text_by_words text n).length =
        (chunkList n (tokensP text)).length := by
      have := congrArg List.length hkey
      simpa using this
    rw [hlen, chunkList_length n _ h]
    have : (tokensP text).length = (pySplitWs text).length := by
      rw [← tokensP_words, List.length_map]
    rw [this]

unseal tokensP chunkList in
/-- Witness for C1 at `text = "one two three"`, `chunkSize = 2`. -/
theorem chunk_words_and_count_witness :
    (1 : Nat) ≤ 2 ∧
    (((chunk_text_by_words "one two three".toList 2).map pySplitWs).flatten =
        pySplitWs "one two three".toList ∧
      (chunk_text_by_words "one two three".toList 2).length =
        ((pySplitWs "one two three".toList).length + 2 - 1) / 2) :=
  ⟨by decide, chunk_words_and_count "one two three".toList 2 (by decide)⟩

/-! ### Claims C8 and C9 -/

theorem tokensP_all_space (s : List Char) (h : ∀ c ∈ s, isPySpace c = true) :
    tokensP s = [] := by
  induction s with
  | nil => rw [tokensP]
  | cons c rest ih =>
    rw [tokensP, if_pos (h c (by simp))]
    exact ih (fun d hd => h d (by simp [hd]))

/-- C8: chunking the empty string yields the empty list of chunks. -/
theorem chunk_empty_text (n : Nat) (h : 1 ≤ n) :
    chunk_text_by_words [] n = [] := by
  rw [chunk_text_by_words, tokens, tokensP, List.map_nil]
  rcases n with _ | m
  · rw [chunkList]; rfl
  · rw [chunkList]; rfl

unseal tokensP chunkList in
/-- Witness for C8 at `chunkSize = 7`. -/
theorem chunk_empty_text_witness :
    (1 : Nat) ≤ 7 ∧ chunk_text_by_words [] 7 = [] :=
  ⟨by decide, chunk_empty_text 7 (by decide)⟩

theorem pyStrip_eq_nil_iff (x : List Char) :
    pyStrip x = [] ↔ ∀ c ∈ x, isPySpace c = true := by
  rw [pyStrip, List.reverse_eq_nil_iff, List.dropWhile_eq_nil_iff]
  constructor
  · intro h c hc
    rcases (List.mem_append.mp
        (by rw [List.takeWhile_append_dropWhile (p := isPySpace)]; exact hc :
          c ∈ x.takeWhile isPySpace ++ x.dropWhile isPySpace)) with h1 | h2
    · exact mem_takeWhile_pred _ _ c h1
    · exact h c (by simpa using h2)
  · intro h c hc
    rw [List.mem_reverse] at hc
    exact h c ((List.dropWhile_sublist isPySpace).mem hc)

theorem chunkList_mem_ne_nil (n : Nat) (l : List α) (g : List α)
    (hg : g ∈ chunkList n l) : g ≠ [] := by
  induction n, l using chunkList.induct with
  | case1 l => simp [chunkList] at hg
  | case2 m => simp [chunkList] at hg
  | case3 m c cs ih =>
    rw [chunkList, List.mem_cons] at hg
    rcases hg with rfl | hg2
    · simp
    · exact ih hg2

/-- C9: a non-empty whitespace-only text chunks to the empty list, and no
returned chunk is ever the empty string. -/
theorem chunk_whitespace_and_no_empty :
    (∀ (s : List Char) (n : Nat), s ≠ [] → (∀ c ∈ s, isPySpace c = true) →
      1 ≤ n → chunk_text_by_words s n = []) ∧
    (∀ (text : List Char) (n : Nat) (ch : List Char), 1 ≤ n →
      ch ∈ chunk_text_by_words text n → ch ≠ []) := by
  constructor
  · intro s n _ hsp _
    rw [chunk_text_by_words, tokens, tokensP_all_space s hsp, List.map_nil]
    rcases n with _ | m
    · rw [chunkList]; rfl
    · rw [chunkList]; rfl
  · intro text n ch _ hch
    rw [chunk_text_by_words, tokens, chunkList_map, List.map_map,
      List.mem_map] at hch
    obtain ⟨gp, hgp, rfl⟩ := hch
    have hsep := sepToks_chunkList n (tokensP text) (sepToks_tokensP text) gp hgp
    have hne := chunkList_mem_ne_nil n (tokensP text) gp hgp
    rcases gp with _ | ⟨t, gp2⟩
    · exact absurd rfl hne
    obtain ⟨⟨hw, hwns, _⟩, _, _⟩ := hsep
    rcases ht : t.1 with _ | ⟨c, w2⟩
    · exact absurd ht hw
    intro hnil
    rw [Function.comp_apply] at hnil
    have hc : c ∈ (List.map (fun t => t.1 ++ t.2) (t :: gp2)).flatten := by
      rw [List.map_cons, List.flatten_cons]
      refine List.mem_append.mpr (Or.inl ?_)
      rw [ht]
      simp
    have := (pyStrip_eq_nil_iff _).mp hnil c hc
    rw [hwns c (by rw [ht]; simp)] at this
    exact Bool.false_ne_true this

unseal tokensP chunkList in
/-- Witness for C9: a whitespace-only text, and a non-empty chunk membership. -/
theorem chunk_whitespace_and_no_empty_witness :
    chunk_text_by_words " \t\n ".toList 3 = [] ∧ "hi".toList ≠ [] :=
  ⟨chunk_whitespace_and_no_empty.1 " \t\n ".toList 3 (by decide) (by decide)
      (by decide),
    chunk_whitespace_and_no_empty.2 "hi ho".toList 1 "hi".toList (by decide)
      (by decide)⟩

/-! ### Markdown rendering (src/utils/markdown_utils.py) -/

/-- The line `---` with its newline: the frontmatter marker used by
`format_chunk_as_markdown`. -/
def markerNL : List Char := ['-', '-', '-', '\n']

/-- One line of PyYAML output for a plain-style string entry: `key: value`
followed by a newline. -/
def yamlLine (kv : List Char × List Char) : List Char :=
  kv.1 ++ ':' :: ' ' :: kv.2 ++ ['\n']

/-- `yaml.dump(metadata, sort_keys=False, allow_unicode=True)`, modelled for
string-valued mappings whose keys and values PyYAML emits in plain style
(see `PlainScalar`): one `key: value` line per entry, in insertion order.
`yaml.dump` of an empty mapping is the flow-style line `\x7b\x7d`. -/
def yamlDump (md : List (List Char × List Char)) : List Char :=
  match md with
  | [] => ['\x7b', '\x7d', '\n']
  | _ => (md.map yamlLine).flatten

/-- `format_chunk_as_markdown` from `src/utils/markdown_utils.py`:
`f"---\n{yaml_frontmatter}---\n\n{chunk}\n"`. -/
def format_chunk_as_markdown (chunk : List Char)
    (metadata : List (List Char × List Char)) : List Char :=
  markerNL ++ yamlDump metadata ++ (markerNL ++ ['\n']) ++ chunk ++ ['\n']

/-- Split a string into lines, each keeping its terminating newline
(the final line may lack one); concatenating the lines gives back the
string. -/
def linesKeep : List Char → List (List Char)
  | [] => []
  | c :: rest =>
    if c = '\n' then ['\n'] :: linesKeep rest
    else
      match linesKeep rest with
      | [] => [[c]]
      | l :: ls => (c :: l) :: ls

/-- Spec-side recovery, step 1: scan for the closing `---` marker line,
returning the header lines before it and the lines after it. -/
def findClose : List (List Char) →
    Option (List (List Char) × List (List Char))
  | [] => none
  | l :: rest =>
    if l = markerNL then some ([], rest)
    else
      match findClose rest with
      | none => none
      | some p => some (l :: p.1, p.2)

/-- Spec-side recovery, step 2: locate the first blank line and return the
concatenation of everything after it (the body). -/
def findBlank : List (List Char) → Option (List Char)
  | [] => none
  | l :: rest => if l = ['\n'] then some rest.flatten else findBlank rest

/-- The recovery procedure the spec describes for the rendered document:
the header block and body are separated by locating the closing marker
line and then the first blank line following it. -/
def splitHeaderAndBody (s : List Char) : Option (List Char × List Char) :=
  match linesKeep s with
  | [] => none
  | first :: rest =>
    if first = markerNL then
      match findClose rest with
      | none => none
      | some (hdr, after) =>
        match findBlank after with
        | none => none
        | some body => some (hdr.flatten, body)
    else none

/-- Remove a terminating newline from a line, if present. -/
def chopNewline (l : List Char) : List Char :=
  if l.getLast? = some '\n' then l.dropLast else l

/-- Split a line at the first occurrence of `: ` (colon-space), the
`key: value` separator of the header block the spec describes. -/
def splitOnColonSpace : List Char → Option (List Char × List Char)
  | [] => none
  | c :: rest =>
    if c = ':' ∧ rest.head? = some ' ' then some ([], rest.tail)
    else
      match splitOnColonSpace rest with
      | none => none
      | some p => some (c :: p.1, p.2)

/-- Parse header lines of the form `key: value` back into a mapping. -/
def parseLines : List (List Char) → Option (List (List Char × List Char))
  | [] => some []
  | l :: ls =>
    match splitOnColonSpace (chopNewline l), parseLines ls with
    | some kv, some rest => some (kv :: rest)
    | _, _ => none

/-- Spec-side recovery, step 3: parse the recovered header block back into
the metadata mapping. -/
def parseHeaderLines (hdr : List Char) :
    Option (List (List Char × List Char)) :=
  parseLines (linesKeep hdr)

/-- Characters of a scalar that PyYAML emits in plain (unquoted) style and
that our header parser handles: letters, digits, spaces and underscores. -/
def plainChar (c : Char) : Bool :=
  c.isAlphanum || c = ' ' || c = '_'

/-- YAML 1.1 keywords that PyYAML would resolve to booleans or null, hence
would quote when dumping them as strings. -/
def yamlKeyword (s : List Char) : Bool :=
  ["yes", "Yes", "YES", "no", "No", "NO", "true", "True", "TRUE",
    "false", "False", "FALSE", "on", "On", "ON", "off", "Off", "OFF",
    "null", "Null", "NULL", "y", "Y", "n", "N"].any
    (fun k => k.toList == s)

/-- A string PyYAML dumps as a plain scalar (within the modelled fragment):
nonempty, made of letters/digits/spaces/underscores, containing a letter
(so it does not resolve to a number), with no surrounding space, and not a
YAML boolean/null keyword. -/
def PlainScalar (s : List Char) : Prop :=
  s ≠ [] ∧ (∀ c ∈ s, plainChar c = true) ∧ (∃ c ∈ s, c.isAlpha = true) ∧
  s.head? ≠ some ' ' ∧ s.getLast? ≠ some ' ' ∧ yamlKeyword s = false

/-! ### Round-trip lemmas for the rendered document -/

theorem plainChar_not_special (c : Char) (h : plainChar c = true) :
    c ≠ ':' ∧ c ≠ '\n' ∧ c ≠ '-' := by
  refine ⟨?_, ?_, ?_⟩ <;> rintro rfl <;> exact absurd h (by decide)

theorem linesKeep_line (a t : List Char) (ha : ∀ c ∈ a, c ≠ '\n') :
    linesKeep (a ++ '\n' :: t) = (a ++ ['\n']) :: linesKeep t := by
  induction a with
  | nil => simp [linesKeep]
  | cons c a2 ih =>
    have hc : c ≠ '\n' := ha c (by simp)
    rw [List.cons_append, linesKeep, if_neg hc,
      ih (fun d hd => ha d (by simp [hd]))]
    simp

theorem linesKeep_flatten (s : List Char) : (linesKeep s).flatten = s := by
  induction s with
  | nil => simp [linesKeep]
  | cons c rest ih =>
    rw [linesKeep]
    by_cases hc : c = '\n'
    · subst hc
      rw [if_pos rfl]
      simpa using ih
    · rw [if_neg hc]
      rcases hlk : linesKeep rest with _ | ⟨l, ls⟩
      · rw [hlk] at ih
        simp only [List.flatten_nil] at ih
        simp [← ih]
      · rw [hlk] at ih
        simp only [List.flatten_cons] at ih ⊢
        simp [ih]

theorem linesKeep_yaml (md : List (List Char × List Char)) (t : List Char)
    (h : ∀ kv ∈ md, (∀ c ∈ kv.1, c ≠ '\n') ∧ (∀ c ∈ kv.2, c ≠ '\n')) :
    linesKeep ((md.map yamlLine).flatten ++ t) =
      md.map yamlLine ++ linesKeep t := by
  induction md with
  | nil => simp
  | cons kv md2 ih =>
    obtain ⟨h1, h2⟩ := h kv (by simp)
    have hline : yamlLine kv ++ ((md2.map yamlLine).flatten ++ t) =
        (kv.1 ++ ':' :: ' ' :: kv.2) ++ '\n' ::
          ((md2.map yamlLine).flatten ++ t) := by
      rw [yamlLine]
      simp
    rw [List.map_cons, List.flatten_cons, List.append_assoc, hline,
      linesKeep_line _ _ ?_]
    · rw [ih (fun kv2 hkv2 => h kv2 (by simp [hkv2]))]
      rw [List.cons_append]
      congr 1
    · intro c hc
      rcases List.mem_append.mp hc with hc1 | hc2
      · exact h1 c hc1
      · rcases List.mem_cons.mp hc2 with rfl | hc3
        · intro heq; exact absurd heq (by decide)
        · rcases List.mem_cons.mp hc3 with rfl | hc4
          · intro heq; exact absurd heq (by decide)
          · exact h2 c hc4

theorem yamlLine_ne_marker (kv : List Char × List Char)
    (hk : PlainScalar kv.1) : yamlLine kv ≠ markerNL := by
  obtain ⟨hne, hch, -⟩ := hk
  rcases hkv : kv.1 with _ | ⟨c, k2⟩
  · exact absurd hkv hne
  have hc : plainChar c = true := by
    rw [hkv] at hch
    exact hch c (by simp)
  have hform : yamlLine kv = c :: (k2 ++ (':' :: ' ' :: kv.2 ++ ['\n'])) := by
    rw [yamlLine, hkv]
    simp
  intro heq
  rw [hform, markerNL] at heq
  have hhd := congrArg List.head? heq
  simp only [List.head?_cons, Option.some.injEq] at hhd
  exact absurd hhd (plainChar_not_special c hc).2.2

theorem findClose_yaml (lines after : List (List Char))
    (h : ∀ l ∈ lines, l ≠ markerNL) :
    findClose (lines ++ markerNL :: after) = some (lines, after) := by
  induction lines with
  | nil =>
    rw [List.nil_append, findClose, if_pos rfl]
  | cons l ls ih =>
    rw [List.cons_append, findClose, if_neg (h l (by simp)),
      ih (fun l2 hl2 => h l2 (by simp [hl2]))]

theorem splitOnColonSpace_key (k v : List Char) (hk : ∀ c ∈ k, c ≠ ':') :
    splitOnColonSpace (k ++ ':' :: ' ' :: v) = some (k, v) := by
  induction k with
  | nil =>
    rw [List.nil_append, splitOnColonSpace, if_pos ⟨rfl, rfl⟩]
    rfl
  | cons c k2 ih =>
    rw [List.cons_append, splitOnColonSpace,
      if_neg (fun hcon => hk c (by simp) hcon.1),
      ih (fun d hd => hk d (by simp [hd]))]

theorem parseLines_yaml (md : List (List Char × List Char))
    (h : ∀ kv ∈ md, (∀ c ∈ kv.1, c ≠ ':') ∧ (∀ c ∈ kv.2, c ≠ '\n')) :
    parseLines (md.map yamlLine) = some md := by
  induction md with
  | nil => rw [List.map_nil, parseLines]
  | cons kv md2 ih =>
    obtain ⟨h1, -⟩ := h kv (by simp)
    have hchop : chopNewline (yamlLine kv) = kv.1 ++ ':' :: ' ' :: kv.2 := by
      have hform : yamlLine kv = (kv.1 ++ ':' :: ' ' :: kv.2) ++ ['\n'] := by
        rw [yamlLine]
      rw [hform, chopNewline, if_pos (List.getLast?_concat _),
        List.dropLast_concat]
    rw [List.map_cons, parseLines, hchop, splitOnColonSpace_key _ _ h1,
      ih (fun kv2 hkv2 => h kv2 (by simp [hkv2]))]

/-! ### Claim C2 -/

/-- C2: rendering round-trips.  For every chunk string and every metadata
mapping (within the modelled PyYAML plain-scalar fragment), splitting the
output of `format_chunk_as_markdown` at the first blank line following the
closing marker recovers the header block, parsing the header recovers
exactly the metadata's keys and values in insertion order, and the body is
exactly the chunk followed by a trailing newline. -/
theorem render_round_trip (chunk : List Char)
    (md : List (List Char × List Char)) (hne : md ≠ [])
    (hplain : ∀ kv ∈ md, PlainScalar kv.1 ∧ PlainScalar kv.2) :
    splitHeaderAndBody (format_chunk_as_markdown chunk md) =
      some (yamlDump md, chunk ++ ['\n']) ∧
    parseHeaderLines (yamlDump md) = some md := by
  have hnl : ∀ kv ∈ md, (∀ c ∈ kv.1, c ≠ '\n') ∧ (∀ c ∈ kv.2, c ≠ '\n') := by
    intro kv hkv
    obtain ⟨⟨-, hk, -⟩, ⟨-, hv, -⟩⟩ := hplain kv hkv
    exact ⟨fun c hc => (plainChar_not_special c (hk c hc)).2.1,
      fun c hc => (plainChar_not_special c (hv c hc)).2.1⟩
  have hflat : yamlDump md = (md.map yamlLine).flatten := by
    rcases md with _ | ⟨kv, md2⟩
    · exact absurd rfl hne
    · rw [yamlDump]
      simp
  have hmk : ∀ l ∈ md.map yamlLine, l ≠ markerNL := by
    intro l hl
    obtain ⟨kv, hkv, rfl⟩ := List.mem_map.mp hl
    exact yamlLine_ne_marker kv (hplain kv hkv).1
  have hlk : linesKeep (format_chunk_as_markdown chunk md) =
      markerNL :: (md.map yamlLine ++
        (markerNL :: (['\n'] :: linesKeep (chunk ++ ['\n'])))) := by
    have h1 : format_chunk_as_markdown chunk md =
        ['-', '-', '-'] ++ ('\n' :: (yamlDump md ++
          (['-', '-', '-'] ++ ('\n' :: ('\n' :: (chunk ++ ['\n'])))))) := by
      rw [format_chunk_as_markdown, markerNL]
      simp
    rw [h1, linesKeep_line _ _ (by decide)]
    have h2 : (['-', '-', '-'] : List Char) ++ ['\n'] = markerNL := rfl
    rw [h2, hflat, linesKeep_yaml md _ hnl, linesKeep_line _ _ (by decide),
      h2]
    rfl
  constructor
  · rw [splitHeaderAndBody.eq_def, hlk]
    simp [findClose_yaml _ _ hmk, findBlank, linesKeep_flatten, hflat]
  · have hlky := linesKeep_yaml md [] hnl
    rw [List.append_nil] at hlky
    rw [parseHeaderLines, hflat, hlky]
    have : linesKeep [] = [] := rfl
    rw [this, List.append_nil]
    refine parseLines_yaml md ?_
    intro kv hkv
    obtain ⟨⟨-, hk, -⟩, -⟩ := hplain kv hkv
    exact ⟨fun c hc => (plainChar_not_special c (hk c hc)).1,
      (hnl kv hkv).2⟩

instance decPlainScalar (s : List Char) : Decidable (PlainScalar s) := by
  unfold PlainScalar
  infer_instance

/-- Witness for C2 at a two-entry metadata mapping and a body containing a
blank line. -/
theorem render_round_trip_witness :
    splitHeaderAndBody (format_chunk_as_markdown
        "Body line one\n\nmore text".toList
        [("file_hash".toList, "abc def".toList),
          ("first_line".toList, "Hello World".toList)]) =
      some (yamlDump [("file_hash".toList, "abc def".toList),
          ("first_line".toList, "Hello World".toList)],
        "Body line one\n\nmore text".toList ++ ['\n']) ∧
    parseHeaderLines (yamlDump [("file_hash".toList, "abc def".toList),
        ("first_line".toList, "Hello World".toList)]) =
      some [("file_hash".toList, "abc def".toList),
        ("first_line".toList, "Hello World".toList)] :=
  render_round_trip _ _ (by decide) (by decide)

/-! ### LLM connector (src/utils/llm_connector.py) -/

/-- The outcome of the `requests.post` exchange inside `call_llm`: either a
successful response whose parsed content is a string, or an
`requests.exceptions.HTTPError` raised by `raise_for_status` (carrying the
exception text, the status code and the response body), or any other
exception (timeout, connection error, missing JSON field, ...). -/
inductive LLMOutcome where
  | success (content : List Char)
  | httpError (message statusCode respText : List Char)
  | failure (message : List Char)

/-- `True` for the two exceptional outcomes. -/
def isFailureOutcome : LLMOutcome → Bool
  | .success _ => false
  | _ => true

/-- `json.dumps(data)` for the request payload of `call_llm`, as embedded
into the error strings.  String-escaping inside the prompt is elided; the
claims never inspect this text. -/
def requestJson (model prompt systemPrompt : List Char) (maxTokens : Nat) :
    List Char :=
  "\x7b\x22model\x22: \x22".toList ++ model ++
  "\x22, \x22messages\x22: [\x7b\x22role\x22: \x22system\x22, \x22content\x22: \x22".toList ++
  systemPrompt ++
  "\x22\x7d, \x7b\x22role\x22: \x22user\x22, \x22content\x22: \x22".toList ++ prompt ++
  "\x22\x7d], \x22max_tokens\x22: ".toList ++ (toString maxTokens).toList ++
  ", \x22temperature\x22: 0.2\x7d".toList

/-- `LLMConnector.call_llm` from `src/utils/llm_connector.py`: on success
the content is stripped and returned; an `HTTPError` is caught and turned
into the string
`[LLM HTTP error: {err}\nStatus code: {code}\nResponse: {text}\nRequest: {json}]`;
any other exception is caught and turned into
`[LLM error: {e}\nRequest: {json}]`.  The function never raises. -/
def call_llm (model prompt : List Char) (maxTokens : Nat)
    (systemPrompt : List Char) (o : LLMOutcome) : List Char :=
  match o with
  | .success content => pyStrip content
  | .httpError msg code respText =>
    "[LLM HTTP error: ".toList ++ msg ++ "\nStatus code: ".toList ++ code ++
      "\nResponse: ".toList ++ respText ++ "\nRequest: ".toList ++
      requestJson model prompt systemPrompt maxTokens ++ "]".toList
  | .failure msg =>
    "[LLM error: ".toList ++ msg ++ "\nRequest: ".toList ++
      requestJson model prompt systemPrompt maxTokens ++ "]".toList

/-- `LLMConnector.truncate_text`: truncate to `max_chars` characters. -/
def truncate_text (text : List Char) (maxChars : Nat) : List Char :=
  text.take maxChars

/-- `LLMConnector.clean_text`: keep only tab, LF, CR and printable ASCII
(the regex deletes `[^\x09\x0A\x0D\x20-\x7E]`). -/
def clean_text (text : List Char) : List Char :=
  text.filter (fun c =>
    c = '\x09' || c = '\x0a' || c = '\x0d' ||
      (0x20 ≤ c.val && c.val ≤ 0x7e))

/-- The summary prompt of `enrich_metadata`. -/
def summaryPrompt (chunkClean : List Char) : List Char :=
  "Summarize the following document chunk in 1-2 sentences:\n\n".toList ++
    chunkClean

/-- The keywords prompt of `enrich_metadata`. -/
def keywordsPrompt (chunkClean : List Char) : List Char :=
  "Extract 5-10 keywords or topics from the following document chunk:\n\n".toList ++
    chunkClean

/-- The section prompt of `enrich_metadata`. -/
def sectionPrompt (chunkClean : List Char) : List Char :=
  "If this chunk is part of a chapter or section, provide the likely section or chapter title. If not, say 'None'.\n\n".toList ++
    chunkClean

/-- `LLMConnector.enrich_metadata` from `src/utils/llm_connector.py`: clean
and truncate the chunk, issue the three independent requests (whose
outcomes are the three `LLMOutcome` parameters) and return the dict of the
three fields.  `full_text` is accepted and unused, as in the source. -/
def enrich_metadata (model chunk fullText : List Char)
    (oSummary oKeywords oSection : LLMOutcome) :
    List (List Char × List Char) :=
  let chunkClean := clean_text (truncate_text chunk 4000)
  [("llm_summary".toList,
      call_llm model (summaryPrompt chunkClean) 128
        "Be precise and concise.".toList oSummary),
    ("llm_keywords".toList,
      call_llm model (keywordsPrompt chunkClean) 64
        "Be precise and concise.".toList oKeywords),
    ("llm_section".toList,
      call_llm model (sectionPrompt chunkClean) 32
        "Be precise and concise.".toList oSection)]

/-- First-match lookup in an association list (Python `dict` access, given
distinct keys). -/
def lookupKey (k : List Char) :
    List (List Char × List Char) → Option (List Char)
  | [] => none
  | kv :: rest => if kv.1 = k then some kv.2 else lookupKey k rest

/-! ### Claims C3 and C10 -/

/-- C10: `enrich_metadata` always returns a mapping with exactly the three
keys `llm_summary`, `llm_keywords`, `llm_section`, in this order, each
bound to a string, whatever the three request outcomes were. -/
theorem enrich_keys_exact (model chunk fullText : List Char)
    (o1 o2 o3 : LLMOutcome) :
    (enrich_metadata model chunk fullText o1 o2 o3).map Prod.fst =
      ["llm_summary".toList, "llm_keywords".toList, "llm_section".toList] :=
  rfl

/-- C3: a failing enrichment request never raises (the embedding is total),
yields a descriptive error string beginning with `[LLM ` as the field's
value, and leaves the other two fields' values unchanged (each field
depends only on its own outcome). -/
theorem enrich_error_isolated (model chunk fullText : List Char)
    (o1 o2 o3 o1' o2' o3' : LLMOutcome)
    (h1 : isFailureOutcome o1 = true) (h2 : isFailureOutcome o2 = true)
    (h3 : isFailureOutcome o3 = true) :
    (∃ e t, lookupKey "llm_summary".toList
        (enrich_metadata model chunk fullText o1 o2' o3') = some e ∧
        e = "[LLM ".toList ++ t) ∧
    (∃ e t, lookupKey "llm_keywords".toList
        (enrich_metadata model chunk fullText o1' o2 o3') = some e ∧
        e = "[LLM ".toList ++ t) ∧
    (∃ e t, lookupKey "llm_section".toList
        (enrich_metadata model chunk fullText o1' o2' o3) = some e ∧
        e = "[LLM ".toList ++ t) ∧
    lookupKey "llm_summary".toList
        (enrich_metadata model chunk fullText o1 o2 o3) =
      lookupKey "llm_summary".toList
        (enrich_metadata model chunk fullText o1 o2' o3') ∧
    lookupKey "llm_keywords".toList
        (enrich_metadata model chunk fullText o1 o2 o3) =
      lookupKey "llm_keywords".toList
        (enrich_metadata model chunk fullText o1' o2 o3') ∧
    lookupKey "llm_section".toList
        (enrich_metadata model chunk fullText o1 o2 o3) =
      lookupKey "llm_section".toList
        (enrich_metadata model chunk fullText o1' o2' o3) := by
  have hpre : ∀ (p : List Char) (mt : Nat) (o : LLMOutcome),
      isFailureOutcome o = true → ∃ t,
      call_llm model p mt "Be precise and concise.".toList o =
        "[LLM ".toList ++ t := by
    intro p mt o ho
    rcases o with content | ⟨msg, code, respText⟩ | msg
    · simp [isFailureOutcome] at ho
    · refine ⟨"HTTP error: ".toList ++ msg ++ "\nStatus code: ".toList ++
        code ++ "\nResponse: ".toList ++ respText ++ "\nRequest: ".toList ++
        requestJson model p "Be precise and concise.".toList mt ++
        "]".toList, ?_⟩
      rw [call_llm]
      simp
    · refine ⟨"error: ".toList ++ msg ++ "\nRequest: ".toList ++
        requestJson model p "Be precise and concise.".toList mt ++
        "]".toList, ?_⟩
      rw [call_llm]
      simp
  have hs : ∀ a b c, lookupKey "llm_summary".toList
      (enrich_metadata model chunk fullText a b c) =
      some (call_llm model
        (summaryPrompt (clean_text (truncate_text chunk 4000))) 128
        "Be precise and concise.".toList a) := fun _ _ _ => rfl
  have hk : ∀ a b c, lookupKey "llm_keywords".toList
      (enrich_metadata model chunk fullText a b c) =
      some (call_llm model
        (keywordsPrompt (clean_text (truncate_text chunk 4000))) 64
        "Be precise and concise.".toList b) := fun _ _ _ => rfl
  have hsec : ∀ a b c, lookupKey "llm_section".toList
      (enrich_metadata model chunk fullText a b c) =
      some (call_llm model
        (sectionPrompt (clean_text (truncate_text chunk 4000))) 32
        "Be precise and concise.".toList c) := fun _ _ _ => rfl
  refine ⟨?_, ?_, ?_, ?_, ?_, ?_⟩
  · obtain ⟨t, ht⟩ := hpre (summaryPrompt (clean_text (truncate_text chunk 4000))) 128 o1 h1
    exact ⟨_, t, hs o1 o2' o3', ht⟩
  · obtain ⟨t, ht⟩ := hpre (keywordsPrompt (clean_text (truncate_text chunk 4000))) 64 o2 h2
    exact ⟨_, t, hk o1' o2 o3', ht⟩
  · obtain ⟨t, ht⟩ := hpre (sectionPrompt (clean_text (truncate_text chunk 4000))) 32 o3 h3
    exact ⟨_, t, hsec o1' o2' o3, ht⟩
  · rw [hs o1 o2 o3, hs o1 o2' o3']
  · rw [hk o1 o2 o3, hk o1' o2 o3']
  · rw [hsec o1 o2 o3, hsec o1' o2' o3]

/-- Witness for C3 at concrete failing outcomes. -/
theorem enrich_error_isolated_witness :
    isFailureOutcome (LLMOutcome.httpError "boom".toList "500".toList
        "oops".toList) = true ∧
    (∃ e t, lookupKey "llm_summary".toList
        (enrich_metadata "sonar".toList "some chunk".toList "full".toList
          (LLMOutcome.httpError "boom".toList "500".toList "oops".toList)
          (LLMOutcome.success "kw".toList)
          (LLMOutcome.success "sec".toList)) = some e ∧
        e = "[LLM ".toList ++ t) := by
  refine ⟨by decide, ?_⟩
  exact (enrich_error_isolated "sonar".toList "some chunk".toList
    "full".toList
    (LLMOutcome.httpError "boom".toList "500".toList "oops".toList)
    (LLMOutcome.failure "t1".toList) (LLMOutcome.failure "t2".toList)
    (LLMOutcome.success "s".toList) (LLMOutcome.success "kw".toList)
    (LLMOutcome.success "sec".toList)
    (by decide) (by decide) (by decide)).1

/-! ### Metadata extractor (src/metadata/metadata_extractor.py) -/

/-- Python `str.splitlines()` for the common terminators `\n`, `\r\n`,
`\r`: terminators end a line, a trailing segment without terminator forms
a final line, and the empty string has no lines. -/
def pySplitlinesAux (acc : List Char) : List Char → List (List Char)
  | [] => if acc.isEmpty then [] else [acc.reverse]
  | '\r' :: '\n' :: rest => acc.reverse :: pySplitlinesAux [] rest
  | '\r' :: rest => acc.reverse :: pySplitlinesAux [] rest
  | '\n' :: rest => acc.reverse :: pySplitlinesAux [] rest
  | c :: rest => pySplitlinesAux (c :: acc) rest

/-- `text.splitlines()`. -/
def pySplitlines (text : List Char) : List (List Char) :=
  pySplitlinesAux [] text

/-- `lines = [line.strip() for line in text.splitlines() if line.strip()]`,
the non-blank stripped lines computed by `extract_heading` and
`extract_rich_metadata`. -/
def stripLines (text : List Char) : List (List Char) :=
  ((pySplitlines text).map pyStrip).filter (fun l => !l.isEmpty)

/-- Python `str.isupper()` (ASCII): at least one cased character, and no
cased character is lower-case. -/
def pyIsUpper (s : List Char) : Bool :=
  s.any (fun c => c.isAlpha) && s.all (fun c => !c.isLower)

/-- Split on every occurrence of a separator character (auxiliary for the
Title-Case regex). -/
def splitOnChar (sep : Char) : List Char → List (List Char)
  | [] => [[]]
  | c :: rest =>
    if c = sep then [] :: splitOnChar sep rest
    else
      match splitOnChar sep rest with
      | [] => [[c]]
      | p :: ps => (c :: p) :: ps

/-- One word of the Title-Case regex: `[A-Z][a-z]+`. -/
def titleWord (w : List Char) : Bool :=
  match w with
  | [] => false
  | c :: rest => c.isUpper && !rest.isEmpty && rest.all (fun d => d.isLower)

/-- The regex `^[A-Z][a-z]+( [A-Z][a-z]+)*$` of `extract_heading`: the line
is a sequence of single-space-separated `[A-Z][a-z]+` words (splitting on
every space, each resulting field must match `[A-Z][a-z]+`; an empty field
from a double/leading/trailing space fails, exactly as in the regex). -/
def titleCaseMatch (l : List Char) : Bool :=
  (splitOnChar ' ' l).all titleWord

/-- `extract_heading` from `src/metadata/metadata_extractor.py`: take the
first non-blank stripped line; return it if `first_line.isupper()` or the
Title-Case regex matches, else `None`. -/
def extract_heading (text : List Char) : Option (List Char) :=
  match stripLines text with
  | [] => none
  | first :: _ =>
    if pyIsUpper first || titleCaseMatch first then some first else none

/-- A character of the regex class `\w` (ASCII): letter, digit or
underscore. -/
def isWordChar (c : Char) : Bool :=
  c.isAlphanum || c = '_'

/-- The maximal word-character runs of a string (the matches of
`\b\w+\b`). -/
def wordRuns : List Char → List (List Char)
  | [] => []
  | c :: rest =>
    if isWordChar c then
      (c :: rest.takeWhile isWordChar) :: wordRuns (rest.dropWhile isWordChar)
    else wordRuns rest
termination_by l => l.length
decreasing_by
  all_goals
    simp only [List.length_cons]
    have h1 := dropWhile_length_le isWordChar rest
    omega

/-- `words = re.findall(r'\b\w{5,}\b', text.lower())` in
`extract_keywords`: the maximal word-character runs of the lower-cased text
that have at least five characters. -/
def words5 (text : List Char) : List (List Char) :=
  (wordRuns (text.map Char.toLower)).filter (fun w => 5 ≤ w.length)

/-- The keys of the frequency dict `freq`, in Python dict insertion order:
each word at its first occurrence. -/
def dedupFirst : List (List Char) → List (List Char)
  | [] => []
  | w :: rest => w :: dedupFirst (rest.filter (fun x => x ≠ w))
termination_by l => l.length
decreasing_by
  simp only [List.length_cons]
  exact Nat.lt_succ_of_le (List.length_filter_le _ _)

/-- Insert into a descending-sorted list, after every element of
greater-or-equal key (so that equal keys keep their original order). -/
def insertDesc (key : List Char → Nat) (x : List Char) :
    List (List Char) → List (List Char)
  | [] => [x]
  | y :: ys => if key y ≤ key x then x :: y :: ys else y :: insertDesc key x ys

/-- Python `sorted(·, key=·, reverse=True)`: a stable descending sort
(CPython's sort is stable and `reverse=True` preserves the order of
elements that compare equal). -/
def pySortedDesc (key : List Char → Nat) : List (List Char) → List (List Char)
  | [] => []
  | x :: xs => insertDesc key x (pySortedDesc key xs)

/-- `sorted_words = sorted(freq, key=freq.get, reverse=True)` in
`extract_keywords`: the distinct qualifying words, stably sorted by
descending frequency. -/
def sortedKeywords (text : List Char) : List (List Char) :=
  pySortedDesc (fun w => (words5 text).count w) (dedupFirst (words5 text))

/-- `extract_keywords` from `src/metadata/metadata_extractor.py`:
`', '.join(sorted_words[:max_keywords])` if any qualifying word exists,
else `None`. -/
def extract_keywords (text : List Char) (maxKeywords : Nat) :
    Option (List Char) :=
  if sortedKeywords text = [] then none
  else some (List.intercalate ", ".toList ((sortedKeywords text).take maxKeywords))

/-- The chunk-derived optional fields appended by `extract_rich_metadata`
(lines 40-52 of `src/metadata/metadata_extractor.py`), in dict insertion
order: `section_heading` if a heading is found, `keywords` if any
qualify, and `first_line`/`last_line` if a non-blank line exists. -/
def chunkDerivedFields (chunk : List Char) : List (List Char × List Char) :=
  (match extract_heading chunk with
    | some h => [("section_heading".toList, h)]
    | none => []) ++
  (match extract_keywords chunk 5 with
    | some k => [("keywords".toList, k)]
    | none => []) ++
  (match stripLines chunk with
    | [] => []
    | a :: rest => [("first_line".toList, a),
        ("last_line".toList, List.getLastD rest a)])

/-- The first non-blank (verbatim, unstripped) line of a chunk, as the
spec's wording refers to it. -/
def specFirstNonBlankLine (chunk : List Char) : Option (List Char) :=
  (pySplitlines chunk).find? (fun l => !(pyStrip l).isEmpty)

/-- The last non-blank (verbatim, unstripped) line of a chunk. -/
def specLastNonBlankLine (chunk : List Char) : Option (List Char) :=
  (pySplitlines chunk).reverse.find? (fun l => !(pyStrip l).isEmpty)

/-- The heading condition as the spec's words state it: the line is
entirely upper-case letters/spaces, or is one or more space-separated
capitalized words with no other punctuation. -/
def specHeadingLine (l : List Char) : Bool :=
  (!l.isEmpty && l.all (fun c => c.isUpper || c = ' ')) ||
  (splitOnChar ' ' l).all (fun w =>
    !w.isEmpty && w.all (fun c => c.isAlpha) &&
      (match w.head? with | some c => c.isUpper | none => false))

/-! ### Metadata merge (src/app.py, src/app_llm.py) -/

/-- Python `dict.__setitem__` on an insertion-ordered association list:
an existing key keeps its position and gets the new value; a new key is
appended at the end. -/
def dictInsert (d : List (List Char × List Char)) (k v : List Char) :
    List (List Char × List Char) :=
  if k ∈ d.map Prod.fst then
    d.map (fun kv => if kv.1 = k then (k, v) else kv)
  else d ++ [(k, v)]

/-- Python `dict.update`, as used by `metadata.update(llm_meta)` in the
Process handlers of `src/app.py` and `src/app_llm.py`: assign each entry
of `u` into `d` in order. -/
def dictUpdate (d u : List (List Char × List Char)) :
    List (List Char × List Char) :=
  u.foldl (fun acc kv => dictInsert acc kv.1 kv.2) d

/-- The keys of a mapping, in order. -/
def keysOf (d : List (List Char × List Char)) : List (List Char) :=
  d.map Prod.fst

/-! ### Stable descending sort lemmas -/

theorem insertDesc_perm (key : List Char → Nat) (x : List Char)
    (l : List (List Char)) : (insertDesc key x l).Perm (x :: l) := by
  induction l with
  | nil => simp [insertDesc]
  | cons y ys ih =>
    rw [insertDesc]
    by_cases h : key y ≤ key x
    · rw [if_pos h]
    · rw [if_neg h]
      exact (ih.cons y).trans (List.Perm.swap x y ys)

theorem insertDesc_ne_nil (key : List Char → Nat) (x : List Char)
    (l : List (List Char)) : insertDesc key x l ≠ [] := by
  cases l with
  | nil => simp [insertDesc]
  | cons y ys =>
    rw [insertDesc]
    by_cases h : key y ≤ key x
    · rw [if_pos h]; simp
    · rw [if_neg h]; simp

theorem insertDesc_sorted (key : List Char → Nat) (x : List Char)
    (l : List (List Char)) (h : l.Pairwise (fun a b => key b ≤ key a)) :
    (insertDesc key x l).Pairwise (fun a b => key b ≤ key a) := by
  induction l with
  | nil => simp [insertDesc]
  | cons y ys ih =>
    rw [insertDesc]
    obtain ⟨hy, hys⟩ := List.pairwise_cons.mp h
    by_cases h1 : key y ≤ key x
    · rw [if_pos h1]
      refine List.pairwise_cons.mpr ⟨?_, h⟩
      intro z hz
      rcases List.mem_cons.mp hz with rfl | hz2
      · exact h1
      · exact le_trans (hy z hz2) h1
    · rw [if_neg h1]
      refine List.pairwise_cons.mpr ⟨?_, ih hys⟩
      intro z hz
      rcases List.mem_cons.mp ((insertDesc_perm key x ys).mem_iff.mp hz) with
        rfl | h2
      · omega
      · exact hy z h2

theorem insertDesc_filter (key : List Char → Nat) (x : List Char)
    (l : List (List Char)) (k0 : Nat) :
    (insertDesc key x l).filter (fun y => key y == k0) =
      if key x = k0 then x :: l.filter (fun y => key y == k0)
      else l.filter (fun y => key y == k0) := by
  induction l with
  | nil =>
    rw [insertDesc]
    by_cases h : key x = k0 <;> simp [List.filter_cons, h]
  | cons y ys ih =>
    rw [insertDesc]
    by_cases h1 : key y ≤ key x
    · rw [if_pos h1]
      by_cases h2 : key x = k0 <;> simp [List.filter_cons, h2]
    · rw [if_neg h1]
      by_cases h2 : key x = k0
      · have h3 : ¬(key y = k0) := by omega
        simp [List.filter_cons, ih, h2, h3]
      · simp [List.filter_cons, ih, h2]

theorem sortedDesc_perm (key : List Char → Nat) (l : List (List Char)) :
    (pySortedDesc key l).Perm l := by
  induction l with
  | nil => simp [pySortedDesc]
  | cons x xs ih =>
    rw [pySortedDesc]
    exact (insertDesc_perm key x (pySortedDesc key xs)).trans (ih.cons x)

theorem sortedDesc_sorted (key : List Char → Nat) (l : List (List Char)) :
    (pySortedDesc key l).Pairwise (fun a b => key b ≤ key a) := by
  induction l with
  | nil => simp [pySortedDesc]
  | cons x xs ih =>
    rw [pySortedDesc]
    exact insertDesc_sorted key x _ ih

theorem sortedDesc_filter (key : List Char → Nat) (l : List (List Char))
    (k0 : Nat) :
    (pySortedDesc key l).filter (fun y => key y == k0) =
      l.filter (fun y => key y == k0) := by
  induction l with
  | nil => simp [pySortedDesc]
  | cons x xs ih =>
    rw [pySortedDesc, insertDesc_filter]
    by_cases h : key x = k0
    · rw [if_pos h, ih, List.filter_cons, if_pos (by simp [h])]
    · rw [if_neg h, ih, List.filter_cons, if_neg (by simp [h])]

theorem sortedDesc_eq_nil_iff (key : List Char → Nat)
    (l : List (List Char)) : pySortedDesc key l = [] ↔ l = [] := by
  cases l with
  | nil => simp [pySortedDesc]
  | cons x xs =>
    rw [pySortedDesc]
    simp [insertDesc_ne_nil]

/-! ### Claim C4 -/

unseal wordRuns dedupFirst in
/-- C4: `extract_keywords` lower-cases the text, collects the word-character
runs of length ≥ 5, sorts the distinct ones by frequency descending with
ties in first-occurrence order (a stable sort: the order of the words of
any fixed frequency is their first-occurrence order), joins the top
`max_keywords` with `", "`, and returns `None` exactly when no token
qualifies; on "Apple apple banana cherry cherry cherry" with
`max_keywords = 2` it returns "cherry, apple". -/
theorem extract_keywords_spec :
    (∀ (text : List Char) (maxk : Nat),
      extract_keywords text maxk = none ↔ words5 text = []) ∧
    (∀ text : List Char,
      (sortedKeywords text).Perm (dedupFirst (words5 text))) ∧
    (∀ text : List Char, (sortedKeywords text).Pairwise
      (fun a b => (words5 text).count b ≤ (words5 text).count a)) ∧
    (∀ (text : List Char) (k : Nat),
      (sortedKeywords text).filter
          (fun w => (words5 text).count w == k) =
        (dedupFirst (words5 text)).filter
          (fun w => (words5 text).count w == k)) ∧
    (∀ (text : List Char) (maxk : Nat), words5 text ≠ [] →
      extract_keywords text maxk =
        some (List.intercalate ", ".toList
          ((sortedKeywords text).take maxk))) ∧
    extract_keywords "Apple apple banana cherry cherry cherry".toList 2 =
      some "cherry, apple".toList := by
  have hnil : ∀ text : List Char,
      sortedKeywords text = [] ↔ words5 text = [] := by
    intro text
    rw [sortedKeywords, sortedDesc_eq_nil_iff]
    cases hw : words5 text with
    | nil => simp [dedupFirst]
    | cons w ws => simp [dedupFirst]
  refine ⟨?_, ?_, ?_, ?_, ?_, by decide⟩
  · intro text maxk
    rw [extract_keywords]
    by_cases h : sortedKeywords text = []
    · simp [h, (hnil text).mp h]
    · rw [if_neg h]
      have hw : words5 text ≠ [] := fun hw => h ((hnil text).mpr hw)
      simp [hw]
  · intro text
    exact sortedDesc_perm _ _
  · intro text
    exact sortedDesc_sorted _ _
  · intro text k
    exact sortedDesc_filter _ _ k
  · intro text maxk hw
    rw [extract_keywords, if_neg (fun h => hw ((hnil text).mp h))]

unseal wordRuns dedupFirst in
/-- Witness for C4's conditional part at a concrete text. -/
theorem extract_keywords_spec_witness :
    extract_keywords "riverbank riverbank meadow".toList 1 =
      some (List.intercalate ", ".toList
        ((sortedKeywords "riverbank riverbank meadow".toList).take 1)) :=
  extract_keywords_spec.2.2.2.2.1 "riverbank riverbank meadow".toList 1
    (by decide)

/-! ### Claim C5 -/

theorem head_filter_map {α β : Type} (f : α → β) (p : β → Bool)
    (l : List α) :
    ((l.map f).filter p).head? = (l.find? (fun a => p (f a))).map f := by
  induction l with
  | nil => simp
  | cons a l2 ih =>
    cases h : p (f a) <;>
      simp [List.filter_cons, List.find?_cons, h, ih]

theorem stripLines_head (text : List Char) :
    (stripLines text).head? = (specFirstNonBlankLine text).map pyStrip := by
  rw [stripLines, specFirstNonBlankLine, head_filter_map]

/-- C5 counterexample: the code accepts `"HELLO!"` as a heading (Python
`isupper` ignores the punctuation) although the claim's condition rejects
it, and rejects `"A Cat"` although the claim's condition (space-separated
capitalized words) accepts it. -/
theorem extract_heading_counterexample :
    extract_heading "HELLO!\nrest".toList = some "HELLO!".toList ∧
    specHeadingLine "HELLO!".toList = false ∧
    extract_heading "A Cat\nrest".toList = none ∧
    specHeadingLine "A Cat".toList = true := by decide

/-- C5 amended: `extract_heading` returns the first non-blank line,
stripped, exactly when Python `str.isupper()` holds for it or the regex
`^[A-Z][a-z]+( [A-Z][a-z]+)*$` matches it; otherwise it returns `None` and
the `section_heading` field is omitted.  The spec's two examples hold. -/
theorem extract_heading_amended :
    (∀ text : List Char,
      extract_heading text =
        ((specFirstNonBlankLine text).map pyStrip).bind
          (fun l => if pyIsUpper l || titleCaseMatch l then some l
            else none)) ∧
    (∀ text : List Char,
      lookupKey "section_heading".toList (chunkDerivedFields text) =
        extract_heading text) ∧
    extract_heading "INTRODUCTION\nsome text".toList =
      some "INTRODUCTION".toList ∧
    extract_heading "the quick fox\nmore".toList = none := by
  refine ⟨?_, ?_, by decide, by decide⟩
  · intro text
    have h2 := stripLines_head text
    rcases hsl : stripLines text with _ | ⟨first, rest⟩
    · rw [hsl] at h2
      simp only [List.head?_nil] at h2
      rw [extract_heading.eq_def, hsl, ← h2]
      rfl
    · rw [hsl] at h2
      simp only [List.head?_cons] at h2
      rw [extract_heading.eq_def, hsl, ← h2]
      rfl
  · intro text
    have d1 : ¬(("keywords".toList : List Char) = "section_heading".toList) := by decide
    have d2 : ¬(("first_line".toList : List Char) = "section_heading".toList) := by decide
    have d3 : ¬(("last_line".toList : List Char) = "section_heading".toList) := by decide
    rcases hh : extract_heading text with _ | h <;>
      rcases hk : extract_keywords text 5 with _ | k <;>
        rcases hsl : stripLines text with _ | ⟨a, rest⟩ <;>
          simp [chunkDerivedFields, hh, hk, hsl, lookupKey, d1, d2, d3]

/-! ### Claim C7 -/

theorem stripLines_getLast (text : List Char) :
    (stripLines text).getLast? = (specLastNonBlankLine text).map pyStrip := by
  rw [stripLines, specLastNonBlankLine, ← List.head?_reverse,
    ← List.filter_reverse, ← List.map_reverse, head_filter_map]

unseal wordRuns dedupFirst in
/-- C7 counterexample: the first non-blank line of the chunk is
`"  hello  "` (verbatim, with its surrounding spaces), but the emitted
`first_line` value is the stripped `"hello"` — not verbatim. -/
theorem first_line_counterexample :
    specFirstNonBlankLine "  hello  \nworld".toList =
      some "  hello  ".toList ∧
    lookupKey "first_line".toList
        (chunkDerivedFields "  hello  \nworld".toList) =
      some "hello".toList ∧
    ¬(("hello".toList : List Char) = "  hello  ".toList) := by decide

/-- C7 amended: whenever the chunk has a non-blank line,
`extract_rich_metadata` emits `first_line` and `last_line` whose values
are the first and last non-blank lines of the chunk with leading/trailing
whitespace stripped (not verbatim); when no non-blank line exists, neither
field is present. -/
theorem first_last_amended (chunk : List Char) :
    lookupKey "first_line".toList (chunkDerivedFields chunk) =
      (specFirstNonBlankLine chunk).map pyStrip ∧
    lookupKey "last_line".toList (chunkDerivedFields chunk) =
      (specLastNonBlankLine chunk).map pyStrip := by
  have h2 := stripLines_head chunk
  have h3 := stripLines_getLast chunk
  have d1 : ¬(("section_heading".toList : List Char) = "first_line".toList) := by decide
  have d2 : ¬(("keywords".toList : List Char) = "first_line".toList) := by decide
  have d3 : ¬(("section_heading".toList : List Char) = "last_line".toList) := by decide
  have d4 : ¬(("keywords".toList : List Char) = "last_line".toList) := by decide
  have d5 : ¬(("first_line".toList : List Char) = "last_line".toList) := by decide
  rcases hsl : stripLines chunk with _ | ⟨a, rest⟩
  · rw [hsl] at h2 h3
    simp only [List.head?_nil] at h2
    simp only [List.getLast?_nil] at h3
    rcases hh : extract_heading chunk with _ | h <;>
      rcases hk : extract_keywords chunk 5 with _ | k <;>
        simp [chunkDerivedFields, hh, hk, hsl, lookupKey, d1, d2, d3, d4,
          ← h2, ← h3]
  · rw [hsl] at h2 h3
    simp only [List.head?_cons] at h2
    rw [List.getLast?_cons] at h3
    have hgl : List.getLastD rest a = rest.getLast?.getD a :=
      List.getLastD_eq_getLast? a rest
    rcases hh : extract_heading chunk with _ | h <;>
      rcases hk : extract_keywords chunk 5 with _ | k <;>
        simp [chunkDerivedFields, hh, hk, hsl, lookupKey, d1, d2, d3, d4,
          d5, hgl, ← h2, ← h3]

/-! ### Association-list lemmas for the metadata merge -/

theorem lookupKey_not_mem (d : List (List Char × List Char)) (k : List Char)
    (h : k ∉ keysOf d) : lookupKey k d = none := by
  induction d with
  | nil => rw [lookupKey]
  | cons kv d2 ih =>
    have hne : ¬(kv.1 = k) := by
      intro heq
      exact h (by simp [keysOf, heq])
    rw [lookupKey, if_neg hne]
    exact ih (fun hmem => h (by simp [keysOf] at hmem ⊢; exact Or.inr hmem))

theorem lookupKey_append_left (d e : List (List Char × List Char))
    (k w : List Char) (h : lookupKey k d = some w) :
    lookupKey k (d ++ e) = some w := by
  induction d with
  | nil => rw [lookupKey] at h; exact absurd h (by simp)
  | cons kv d2 ih =>
    rw [lookupKey] at h
    rw [List.cons_append, lookupKey]
    by_cases hc : kv.1 = k
    · rw [if_pos hc] at h ⊢; exact h
    · rw [if_neg hc] at h ⊢; exact ih h

theorem lookupKey_append_right (d e : List (List Char × List Char))
    (k : List Char) (h : lookupKey k d = none) :
    lookupKey k (d ++ e) = lookupKey k e := by
  induction d with
  | nil => simp
  | cons kv d2 ih =>
    rw [lookupKey] at h
    rw [List.cons_append, lookupKey]
    by_cases hc : kv.1 = k
    · rw [if_pos hc] at h; exact absurd h (by simp)
    · rw [if_neg hc] at h ⊢; exact ih h

theorem lookupKey_assign_self (d : List (List Char × List Char))
    (k v : List Char) (h : k ∈ keysOf d) :
    lookupKey k (d.map (fun kv => if kv.1 = k then (k, v) else kv)) =
      some v := by
  induction d with
  | nil => simp [keysOf] at h
  | cons kv d2 ih =>
    rw [List.map_cons]
    by_cases hc : kv.1 = k
    · rw [if_pos hc, lookupKey, if_pos rfl]
    · rw [if_neg hc, lookupKey, if_neg hc]
      refine ih ?_
      simp [keysOf] at h
      rcases h with h1 | h1
      · exact absurd h1.symm hc
      · simpa [keysOf] using h1

theorem lookupKey_assign_other (d : List (List Char × List Char))
    (k0 v k : List Char) (hk : k0 ≠ k) :
    lookupKey k (d.map (fun kv => if kv.1 = k0 then (k0, v) else kv)) =
      lookupKey k d := by
  induction d with
  | nil => simp
  | cons kv d2 ih =>
    rw [List.map_cons]
    by_cases hc : kv.1 = k0
    · rw [if_pos hc, lookupKey, if_neg hk, lookupKey, if_neg (hc ▸ hk), ih]
    · rw [if_neg hc, lookupKey, lookupKey, ih]

theorem lookupKey_insert_self (d : List (List Char × List Char))
    (k v : List Char) : lookupKey k (dictInsert d k v) = some v := by
  rw [dictInsert]
  by_cases hmem : k ∈ d.map Prod.fst
  · rw [if_pos hmem]
    exact lookupKey_assign_self d k v hmem
  · rw [if_neg hmem]
    rw [lookupKey_append_right d _ k (lookupKey_not_mem d k hmem)]
    rw [lookupKey, if_pos rfl]

theorem lookupKey_insert_other (d : List (List Char × List Char))
    (k0 v k : List Char) (hk : k0 ≠ k) :
    lookupKey k (dictInsert d k0 v) = lookupKey k d := by
  rw [dictInsert]
  by_cases hmem : k0 ∈ d.map Prod.fst
  · rw [if_pos hmem]
    exact lookupKey_assign_other d k0 v k hk
  · rw [if_neg hmem]
    rcases hl : lookupKey k d with _ | w
    · rw [lookupKey_append_right d _ k hl, lookupKey, if_neg hk, lookupKey]
    · exact lookupKey_append_left d _ k w hl

theorem keysOf_insert (d : List (List Char × List Char)) (k v : List Char) :
    keysOf (dictInsert d k v) =
      if k ∈ keysOf d then keysOf d else keysOf d ++ [k] := by
  simp only [keysOf, dictInsert]
  by_cases hmem : k ∈ List.map Prod.fst d
  · rw [if_pos hmem, if_pos hmem, List.map_map]
    refine List.map_congr_left ?_
    intro kv _
    by_cases hc : kv.1 = k
    · simp [hc]
    · simp [hc]
  · rw [if_neg hmem, if_neg hmem, List.map_append]
    rfl

/-! ### Claim C6 -/

/-- C6 counterexample: with local mapping `{alpha: 1, beta: 2}` and
enrichment result `{alpha: 9}`, `dict.update` keeps the colliding key
`alpha` at its local position, so the enrichment key `alpha` appears
before the local key `beta` — contradicting "enriched keys appear after
all local keys". -/
theorem dict_update_counterexample :
    dictUpdate [("alpha".toList, "1".toList), ("beta".toList, "2".toList)]
        [("alpha".toList, "9".toList)] =
      [("alpha".toList, "9".toList), ("beta".toList, "2".toList)] ∧
    "alpha".toList ∈ keysOf [("alpha".toList, "9".toList)] ∧
    "beta".toList ∈
      keysOf [("alpha".toList, "1".toList), ("beta".toList, "2".toList)] ∧
    (keysOf (dictUpdate
        [("alpha".toList, "1".toList), ("beta".toList, "2".toList)]
        [("alpha".toList, "9".toList)])).indexOf "alpha".toList <
      (keysOf (dictUpdate
        [("alpha".toList, "1".toList), ("beta".toList, "2".toList)]
        [("alpha".toList, "9".toList)])).indexOf "beta".toList := by decide

/-- C6 amended: after `metadata.update(llm_meta)`, every key of the
enrichment result takes the enriched value (the enriched layer wins on
collision), every local key absent from the enrichment result keeps its
local value, and the enrichment keys that are new appear after all local
keys — while a colliding key keeps its original local position. -/
theorem dict_update_merge (d u : List (List Char × List Char))
    (hu : (keysOf u).Nodup) :
    (∀ k v, (k, v) ∈ u → lookupKey k (dictUpdate d u) = some v) ∧
    (∀ k, k ∉ keysOf u → lookupKey k (dictUpdate d u) = lookupKey k d) ∧
    keysOf (dictUpdate d u) =
      keysOf d ++ (keysOf u).filter (fun k2 => decide (k2 ∉ keysOf d)) := by
  induction u generalizing d with
  | nil =>
    refine ⟨by simp, fun k _ => rfl, by simp [dictUpdate, keysOf]⟩
  | cons kv0 u2 ih =>
    have hconsu : keysOf (kv0 :: u2) = kv0.1 :: keysOf u2 := rfl
    rw [hconsu] at hu
    obtain ⟨hk0, hu2⟩ := List.nodup_cons.mp hu
    have hfold : dictUpdate d (kv0 :: u2) =
        dictUpdate (dictInsert d kv0.1 kv0.2) u2 := rfl
    obtain ⟨ih1, ih2, ih3⟩ := ih (dictInsert d kv0.1 kv0.2) hu2
    refine ⟨?_, ?_, ?_⟩
    · intro k v hkv
      rcases List.mem_cons.mp hkv with heq | hmem
      · have hk : k = kv0.1 := congrArg Prod.fst heq
        have hv : v = kv0.2 := congrArg Prod.snd heq
        subst hk; subst hv
        rw [hfold, ih2 kv0.1 hk0, lookupKey_insert_self]
      · rw [hfold]
        exact ih1 k v hmem
    · intro k hk
      have hk1 : kv0.1 ≠ k := by
        intro heq
        exact hk (by simp [keysOf, heq])
      have hk2 : k ∉ keysOf u2 := by
        intro hmem
        exact hk (by simp [keysOf] at hmem ⊢; exact Or.inr hmem)
      rw [hfold, ih2 k hk2, lookupKey_insert_other d kv0.1 kv0.2 k hk1]
    · rw [hfold, ih3, keysOf_insert]
      have hcons : keysOf (kv0 :: u2) = kv0.1 :: keysOf u2 := rfl
      rw [hcons]
      by_cases hmem : kv0.1 ∈ keysOf d
      · rw [if_pos hmem, List.filter_cons,
          if_neg (by simp [hmem])]
      · rw [if_neg hmem, List.filter_cons, if_pos (by simp [hmem])]
        have hcongr : (keysOf u2).filter
            (fun k2 => decide (k2 ∉ keysOf d ++ [kv0.1])) =
            (keysOf u2).filter (fun k2 => decide (k2 ∉ keysOf d)) := by
          refine List.filter_congr ?_
          intro k2 hk2
          have : k2 ≠ kv0.1 := fun heq => hk0 (heq ▸ hk2)
          simp [List.mem_append, this]
        rw [hcongr, List.append_assoc, List.singleton_append]

/-- Witness for C6 (amended) at a concrete merge. -/
theorem dict_update_merge_witness :
    lookupKey "llm_summary".toList
        (dictUpdate [("word_count".toList, "3".toList)]
          [("llm_summary".toList, "short".toList)]) =
      some "short".toList ∧
    keysOf (dictUpdate [("word_count".toList, "3".toList)]
        [("llm_summary".toList, "short".toList)]) =
      keysOf [("word_count".toList, "3".toList)] ++
        (keysOf [("llm_summary".toList, "short".toList)]).filter
          (fun k2 => decide (k2 ∉ keysOf [("word_count".toList, "3".toList)])) :=
  ⟨(dict_update_merge [("word_count".toList, "3".toList)]
      [("llm_summary".toList, "short".toList)] (by decide)).1
      "llm_summary".toList "short".toList (by decide),
    (dict_update_merge [("word_count".toList, "3".toList)]
      [("llm_summary".toList, "short".toList)] (by decide)).2.2⟩

end DocChunker
